import Mathlib

/-!
# Verification of a Miller-Rabin primality test

Shallow embedding of `src/main.py` (functions `is_prime_miller_rabin`,
`find_miller_rabin_r_s`, `miller_rabin_rand_test`), with the randomness of
`randrange(2, n - 1)` modelled by an explicit stream `draws : ℕ → ℤ` of drawn
witnesses, the `i`-th trial consuming `draws i`.  Python integers are modelled
by `ℤ`; Python `%` on a positive modulus agrees with `Int.emod`, and the
halving `r //= 2` is only executed when `r` is even, where floor division
agrees with Lean's division.  The unbounded `while` loop of the decomposer is
modelled with explicit fuel (it diverges exactly when `n - 1 = 0`, i.e. the
fuel-based function returns `none`); `pow(a, r, n)` is modelled by
`a ^ r.toNat % n` (the exponent `r` is nonnegative whenever the function is
reached).
-/

/-- The `while r & 1 == 0: s += 1; r //= 2` loop of `find_miller_rabin_r_s`,
with explicit fuel.  `r & 1 == 0` is `r % 2 = 0` (Python's bitwise test on the
two's-complement representation agrees with the nonnegative remainder), and
for even `r` all division conventions agree on `r / 2`. -/
def fmrsLoop : ℕ → ℕ → ℤ → Option (ℕ × ℤ)
  | 0, _, _ => none
  | fuel + 1, s, r => if r % 2 = 0 then fmrsLoop fuel (s + 1) (r / 2) else some (s, r)

/-- `find_miller_rabin_r_s(n)`: starting from `s = 0, r = n - 1`, halve `r`
while it is even, counting halvings.  Fuel `(n-1).natAbs + 1` is proved
sufficient whenever `n - 1 ≠ 0`; for `n = 1` the Python loop diverges and the
model returns `none`. -/
def find_miller_rabin_r_s (n : ℤ) : Option (ℕ × ℤ) :=
  fmrsLoop ((n - 1).natAbs + 1) 0 (n - 1)

/-- The `while j < s and x != n - 1` squaring loop of `miller_rabin_rand_test`,
followed by the `if x != n - 1: return False` check.  The argument `c` is the
number of remaining loop iterations (`s - j`); the loop body squares `x`
modulo `n` and returns `False` on seeing `1`. -/
def mrLoop (n : ℤ) : ℕ → ℤ → Bool
  | 0, x => x = n - 1
  | c + 1, x =>
    if x = n - 1 then true
    else if x ^ 2 % n = 1 then false
    else mrLoop n c (x ^ 2 % n)

/-- `miller_rabin_rand_test(n, s, r)` with the random draw
`a = randrange(2, n - 1)` hoisted into an explicit argument `a`:
compute `x = pow(a, r, n)`; if `x != 1 and x != n - 1`, run the squaring
loop; otherwise return `True`. -/
def miller_rabin_rand_test (n : ℤ) (s : ℕ) (r : ℤ) (a : ℤ) : Bool :=
  let x := a ^ r.toNat % n
  if x ≠ 1 ∧ x ≠ n - 1 then mrLoop n (s - 1) x else true

/-- The `for _ in range(k): if not miller_rabin_rand_test(n, s, r): return
False` loop of `is_prime_miller_rabin`: `i` is the index of the next draw to
consume, `c` the number of remaining trials. -/
def trialLoop (n : ℤ) (s : ℕ) (r : ℤ) (draws : ℕ → ℤ) : ℕ → ℕ → Bool
  | _, 0 => true
  | i, c + 1 =>
    if miller_rabin_rand_test n s r (draws i) then trialLoop n s r draws (i + 1) c
    else false

/-- `is_prime_miller_rabin(n, k)`: fast paths for `n ∈ {2, 3}` (`True`) and
for `n ≤ 1` or even `n` (`False`); otherwise decompose `n - 1` and run `k`
witness trials (Python's `range(k)` is empty for `k ≤ 0`, hence `k.toNat`
trials).  Returns `none` exactly when the decomposer diverges. -/
def is_prime_miller_rabin (n : ℤ) (k : ℤ) (draws : ℕ → ℤ) : Option Bool :=
  if n = 2 ∨ n = 3 then some true
  else if n ≤ 1 ∨ n % 2 = 0 then some false
  else
    match find_miller_rabin_r_s n with
    | none => none
    | some (s, r) => some (trialLoop n s r draws 0 k.toNat)

/-- The Python default trial count `k = 128`. -/
def defaultK : ℤ := 128

/-- `randrange(2, n - 1)` yields a value in `[2, n - 2]`: validity of a draw
stream for candidate `n`. -/
def ValidDraws (n : ℤ) (draws : ℕ → ℤ) : Prop :=
  ∀ i, 2 ≤ draws i ∧ draws i ≤ n - 2

/-- `n` is a prime number in the usual sense (negative integers, `0` and `1`
are not prime numbers). -/
def IsPrimeNumber (n : ℤ) : Prop := n.toNat.Prime

instance (n : ℤ) : Decidable (IsPrimeNumber n) :=
  inferInstanceAs (Decidable n.toNat.Prime)

/-! ## Decomposer: soundness, sufficiency of the fuel, and the round-trip -/

lemma fmrsLoop_sound :
    ∀ (fuel s : ℕ) (r : ℤ) (s' : ℕ) (r' : ℤ),
      fmrsLoop fuel s r = some (s', r') →
      r' % 2 = 1 ∧ s ≤ s' ∧ r' * 2 ^ (s' - s) = r := by
  intro fuel
  induction fuel with
  | zero => intro s r s' r' h; simp [fmrsLoop] at h
  | succ fuel ih =>
    intro s r s' r' h
    rw [fmrsLoop] at h
    by_cases hr : r % 2 = 0
    · rw [if_pos hr] at h
      obtain ⟨h1, h2, h3⟩ := ih (s + 1) (r / 2) s' r' h
      refine ⟨h1, by omega, ?_⟩
      have hdvd : (2 : ℤ) ∣ r := Int.dvd_of_emod_eq_zero hr
      have hmul : r / 2 * 2 = r := Int.ediv_mul_cancel hdvd
      have hs : s' - s = (s' - (s + 1)) + 1 := by omega
      rw [hs, pow_succ, ← mul_assoc, h3, hmul]
    · rw [if_neg hr] at h
      obtain ⟨rfl, rfl⟩ : s = s' ∧ r = r' := by simpa using h
      exact ⟨by omega, le_refl _, by simp⟩

lemma fmrsLoop_total :
    ∀ (fuel s : ℕ) (r : ℤ), r ≠ 0 → r.natAbs ≤ fuel →
      ∃ s' r', fmrsLoop fuel s r = some (s', r') := by
  intro fuel
  induction fuel with
  | zero =>
    intro s r h0 hle
    exact absurd (Int.natAbs_eq_zero.mp (Nat.le_zero.mp hle)) h0
  | succ fuel ih =>
    intro s r h0 hle
    by_cases hr : r % 2 = 0
    · have hdvd : (2 : ℤ) ∣ r := Int.dvd_of_emod_eq_zero hr
      have hmul : r / 2 * 2 = r := Int.ediv_mul_cancel hdvd
      have h20 : r / 2 ≠ 0 := by
        intro h
        rw [h, zero_mul] at hmul
        exact h0 hmul.symm
      have hna : (r / 2).natAbs * 2 = r.natAbs := by
        have h := congrArg Int.natAbs hmul
        rwa [Int.natAbs_mul] at h
      have hne : (r / 2).natAbs ≠ 0 := Int.natAbs_ne_zero.mpr h20
      obtain ⟨s', r', h⟩ := ih (s + 1) (r / 2) h20 (by omega)
      exact ⟨s', r', by rw [fmrsLoop, if_pos hr]; exact h⟩
    · exact ⟨s, r, by rw [fmrsLoop, if_neg hr]⟩

lemma find_miller_rabin_r_s_spec (n : ℤ) (hodd : n % 2 = 1) (hn : 1 < n) :
    ∃ s r, find_miller_rabin_r_s n = some (s, r) ∧ r % 2 = 1 ∧
      r * 2 ^ s = n - 1 ∧ 1 ≤ r ∧ 1 ≤ s := by
  have h0 : n - 1 ≠ 0 := by omega
  obtain ⟨s, r, h⟩ := fmrsLoop_total ((n - 1).natAbs + 1) 0 (n - 1) h0 (by omega)
  obtain ⟨h1, _, h3⟩ := fmrsLoop_sound _ _ _ _ _ h
  rw [Nat.sub_zero] at h3
  have hpow : (0 : ℤ) < 2 ^ s := pow_pos (by norm_num) s
  have hr1 : 1 ≤ r := by nlinarith
  refine ⟨s, r, h, h1, h3, hr1, ?_⟩
  by_contra hs
  have hsz : s = 0 := by omega
  subst hsz
  simp at h3
  omega

lemma padic_of_decomp (s R m : ℕ) (hodd : R % 2 = 1) (h : R * 2 ^ s = m) :
    padicValNat 2 m = s := by
  haveI : Fact (Nat.Prime 2) := ⟨Nat.prime_two⟩
  subst h
  have hR : R ≠ 0 := by omega
  rw [padicValNat.mul hR (pow_pos (by norm_num : 0 < 2) s).ne',
    padicValNat.prime_pow, padicValNat.eq_zero_of_not_dvd (by omega), zero_add]

/-- Claim C3: decomposer round-trip.  For every odd integer `n > 1`,
`find_miller_rabin_r_s n` terminates and returns `(s, r)` with
`r * 2 ^ s = n - 1`, `r` odd, `s ≥ 1`, and `s` the 2-adic valuation
of `n - 1`. -/
theorem c3_decomposer_roundtrip (n : ℤ) (hodd : n % 2 = 1) (hn : 1 < n) :
    ∃ s r, find_miller_rabin_r_s n = some (s, r) ∧ r * 2 ^ s = n - 1 ∧
      r % 2 = 1 ∧ 1 ≤ s ∧ s = padicValNat 2 (n - 1).toNat := by
  obtain ⟨s, r, hfind, hrodd, hmul, hr1, hs1⟩ := find_miller_rabin_r_s_spec n hodd hn
  refine ⟨s, r, hfind, hmul, hrodd, hs1, ?_⟩
  have hR : (r.toNat : ℤ) = r := Int.toNat_of_nonneg (by omega)
  have h2 : ((n - 1).toNat : ℤ) = n - 1 := Int.toNat_of_nonneg (by omega)
  have h3 : ((r.toNat * 2 ^ s : ℕ) : ℤ) = n - 1 := by push_cast; rw [hR]; exact hmul
  have hm : r.toNat * 2 ^ s = (n - 1).toNat := by exact_mod_cast h3.trans h2.symm
  have hRodd : r.toNat % 2 = 1 := by omega
  exact (padic_of_decomp s r.toNat _ hRodd hm).symm

/-- Witness for C3 at `n = 9`: `8 = 1 * 2 ^ 3`. -/
theorem c3_decomposer_roundtrip_witness :
    ∃ s r, find_miller_rabin_r_s 9 = some (s, r) ∧ r * 2 ^ s = 9 - 1 ∧
      r % 2 = 1 ∧ 1 ≤ s ∧ s = padicValNat 2 ((9 : ℤ) - 1).toNat :=
  c3_decomposer_roundtrip 9 (by decide) (by decide)

/-! ## The witness trial versus the spec's description of it -/

/-- The squaring loop as the spec's §4.2 steps 4–5 describe it: up to `c`
iterations; on each, square `x` modulo `n`, return `false` on `1` (step 4b),
`true` on `n - 1` (step 4c); if the iterations finish without hitting `n - 1`,
return `false` (step 5). -/
def specTrialLoop (n : ℤ) : ℕ → ℤ → Bool
  | 0, _ => false
  | c + 1, x =>
    if x ^ 2 % n = 1 then false
    else if x ^ 2 % n = n - 1 then true
    else specTrialLoop n c (x ^ 2 % n)

/-- The spec's §4.2 witness trial (steps 2–5), with the drawn witness `a`
explicit: `x = a ^ r mod n`; `true` if `x = 1` or `x = n - 1` (step 3);
otherwise run up to `s - 1` squarings. -/
def specWitnessTrial (n : ℤ) (s : ℕ) (r : ℤ) (a : ℤ) : Bool :=
  let x := a ^ r.toNat % n
  if x = 1 ∨ x = n - 1 then true
  else specTrialLoop n (s - 1) x

lemma mrLoop_n_sub_one (n : ℤ) : ∀ c, mrLoop n c (n - 1) = true := by
  intro c
  cases c with
  | zero => simp [mrLoop]
  | succ c => simp [mrLoop]

lemma mrLoop_eq_specTrialLoop (n : ℤ) :
    ∀ (c : ℕ) (x : ℤ), x ≠ n - 1 → mrLoop n c x = specTrialLoop n c x := by
  intro c
  induction c with
  | zero =>
    intro x hx
    simp [mrLoop, specTrialLoop, hx]
  | succ c ih =>
    intro x hx
    rw [mrLoop, specTrialLoop, if_neg hx]
    by_cases h1 : x ^ 2 % n = 1
    · rw [if_pos h1, if_pos h1]
    · rw [if_neg h1, if_neg h1]
      by_cases h2 : x ^ 2 % n = n - 1
      · rw [if_pos h2, h2, mrLoop_n_sub_one]
      · rw [if_neg h2]
        exact ih _ h2

/-- Claim C2: the witness tester implements the spec's trial algorithm
exactly — for all inputs, `miller_rabin_rand_test` coincides with the trial
transcribed from the spec's §4.2 description (in particular for every odd
`n > 3`, decomposition `(s, r)` of `n - 1` and drawn witness `a`). -/
theorem c2_trial_matches_spec (n : ℤ) (s : ℕ) (r : ℤ) (a : ℤ) :
    miller_rabin_rand_test n s r a = specWitnessTrial n s r a := by
  have key : ∀ X : ℤ,
      (if X ≠ 1 ∧ X ≠ n - 1 then mrLoop n (s - 1) X else true)
        = (if X = 1 ∨ X = n - 1 then true else specTrialLoop n (s - 1) X) := by
    intro X
    by_cases h1 : X = 1
    · simp [h1]
    · by_cases h2 : X = n - 1
      · simp [h2]
      · rw [if_pos ⟨h1, h2⟩, if_neg (by tauto)]
        exact mrLoop_eq_specTrialLoop n _ X h2
  exact key (a ^ r.toNat % n)

/-! ## A prime candidate passes every witness trial -/

lemma intCast_emod_eq (p : ℕ) (n : ℤ) (hnp : n = (p : ℤ)) (y : ℤ) :
    ((y % n : ℤ) : ZMod p) = (y : ZMod p) := by
  have hzero : ((n : ℤ) : ZMod p) = 0 := by
    rw [hnp]
    exact_mod_cast ZMod.natCast_self p
  rw [Int.emod_def]
  push_cast
  rw [hzero]
  ring

lemma int_eq_of_cast_eq (p : ℕ) (x y : ℤ) (hx0 : 0 ≤ x) (hx : x < (p : ℤ))
    (hy0 : 0 ≤ y) (hy : y < (p : ℤ)) (h : (x : ZMod p) = (y : ZMod p)) : x = y := by
  rw [ZMod.intCast_eq_intCast_iff'] at h
  rwa [Int.emod_eq_of_lt hx0 hx, Int.emod_eq_of_lt hy0 hy] at h

lemma sq_root_of_one (p : ℕ) [hp : Fact p.Prime] (n : ℤ) (hnp : n = (p : ℤ))
    (x : ℤ) (hx0 : 0 ≤ x) (hx : x < n) (h : ((x : ZMod p)) ^ 2 = 1) :
    x = 1 ∨ x = n - 1 := by
  have hp1 : 1 < (p : ℤ) := by exact_mod_cast hp.out.one_lt
  rw [sq] at h
  rcases mul_self_eq_one_iff.mp h with h1 | h1
  · left
    have : ((1 : ℤ) : ZMod p) = (1 : ZMod p) := by push_cast; rfl
    exact int_eq_of_cast_eq p x 1 hx0 (by omega) (by norm_num) (by omega) (by rw [h1, this])
  · right
    have hcast : ((n - 1 : ℤ) : ZMod p) = -1 := by
      push_cast
      rw [hnp]
      push_cast
      simp [ZMod.natCast_self]
    have := h1.trans hcast.symm
    exact int_eq_of_cast_eq p x (n - 1) hx0 (by omega) (by omega) (by omega) this

lemma mrLoop_true_of_prime (p : ℕ) [hp : Fact p.Prime] (n : ℤ) (hnp : n = (p : ℤ)) :
    ∀ (c : ℕ) (x : ℤ), 0 ≤ x → x < n → x ≠ 1 →
      ((x : ZMod p)) ^ 2 ^ (c + 1) = 1 → mrLoop n c x = true := by
  have hp1 : 1 < (p : ℤ) := by exact_mod_cast hp.out.one_lt
  have hn0 : n ≠ 0 := by omega
  intro c
  induction c with
  | zero =>
    intro x hx0 hxn hx1 hpow
    rw [pow_one] at hpow
    rcases sq_root_of_one p n hnp x hx0 hxn hpow with h | h
    · exact absurd h hx1
    · simp [mrLoop, h]
  | succ c ih =>
    intro x hx0 hxn hx1 hpow
    by_cases hx : x = n - 1
    · simp [mrLoop, hx]
    · have hsq1 : x ^ 2 % n ≠ 1 := by
        intro h
        have hcast : (((x ^ 2 % n : ℤ)) : ZMod p) = ((x : ZMod p)) ^ 2 := by
          rw [intCast_emod_eq p n hnp]
          push_cast
          ring
        rw [h] at hcast
        have : ((x : ZMod p)) ^ 2 = 1 := by
          rw [← hcast]
          push_cast
          rfl
        rcases sq_root_of_one p n hnp x hx0 hxn this with h1 | h1
        · exact hx1 h1
        · exact hx h1
      rw [mrLoop, if_neg hx, if_neg hsq1]
      apply ih (x ^ 2 % n) (Int.emod_nonneg _ hn0) (Int.emod_lt_of_pos _ (by omega)) hsq1
      have hcast : (((x ^ 2 % n : ℤ)) : ZMod p) = ((x : ZMod p)) ^ 2 := by
        rw [intCast_emod_eq p n hnp]
        push_cast
        ring
      rw [hcast, ← pow_mul, ← pow_succ']
      exact hpow

lemma trial_true_of_prime (n : ℤ) (p : ℕ) (hp : p.Prime) (hnp : n = (p : ℤ))
    (hn : 3 < n) (s : ℕ) (r : ℤ) (hs : 1 ≤ s) (hr : 1 ≤ r)
    (hdecomp : r * 2 ^ s = n - 1) (a : ℤ) (ha2 : 2 ≤ a) (han : a ≤ n - 2) :
    miller_rabin_rand_test n s r a = true := by
  haveI : Fact p.Prime := ⟨hp⟩
  have hn0 : n ≠ 0 := by omega
  rw [miller_rabin_rand_test]
  by_cases hbr : a ^ r.toNat % n ≠ 1 ∧ a ^ r.toNat % n ≠ n - 1
  · rw [if_pos hbr]
    have ha0 : (a : ZMod p) ≠ 0 := by
      rw [Ne, ZMod.intCast_zmod_eq_zero_iff_dvd]
      intro hdvd
      have := Int.le_of_dvd (by omega) hdvd
      omega
    have hexp : r.toNat * 2 ^ s = p - 1 := by
      have hR : (r.toNat : ℤ) = r := Int.toNat_of_nonneg (by omega)
      have h1 : ((r.toNat * 2 ^ s : ℕ) : ℤ) = n - 1 := by push_cast; rw [hR]; exact hdecomp
      have h2 : ((p - 1 : ℕ) : ℤ) = n - 1 := by
        have : 1 ≤ p := hp.one_lt.le
        push_cast [this]
        omega
      exact_mod_cast h1.trans h2.symm
    have hfermat : ((a : ZMod p)) ^ (r.toNat * 2 ^ s) = 1 := by
      rw [hexp]
      exact ZMod.pow_card_sub_one_eq_one ha0
    have hcast : (((a ^ r.toNat % n : ℤ)) : ZMod p) = ((a : ZMod p)) ^ r.toNat := by
      rw [intCast_emod_eq p n hnp]
      push_cast
      ring
    have hc : s - 1 + 1 = s := by omega
    apply mrLoop_true_of_prime p n hnp (s - 1) _ (Int.emod_nonneg _ hn0)
      (Int.emod_lt_of_pos _ (by omega)) hbr.1
    rw [hc, hcast, ← pow_mul]
    exact hfermat
  · rw [if_neg hbr]

/-! ## Orchestration of the k trials -/

lemma trialLoop_eq_true_iff (n : ℤ) (s : ℕ) (r : ℤ) (draws : ℕ → ℤ) :
    ∀ (c i : ℕ), trialLoop n s r draws i c = true ↔
      ∀ j, j < c → miller_rabin_rand_test n s r (draws (i + j)) = true := by
  intro c
  induction c with
  | zero => intro i; simp [trialLoop]
  | succ c ih =>
    intro i
    rw [trialLoop]
    by_cases h : miller_rabin_rand_test n s r (draws i) = true
    · rw [if_pos h, ih (i + 1)]
      constructor
      · intro hall j hj
        cases j with
        | zero => simpa using h
        | succ j =>
          have hidx : i + 1 + j = i + (j + 1) := by omega
          have := hall j (by omega)
          rwa [hidx] at this
      · intro hall j hj
        have hidx : i + (j + 1) = i + 1 + j := by omega
        have := hall (j + 1) (by omega)
        rwa [hidx] at this
    · rw [if_neg h]
      simp only [Bool.false_eq_true, false_iff]
      intro hall
      exact h (by simpa using hall 0 (Nat.succ_pos c))

lemma trialLoop_true_of_all (n : ℤ) (s : ℕ) (r : ℤ) (draws : ℕ → ℤ)
    (hall : ∀ i, miller_rabin_rand_test n s r (draws i) = true) :
    ∀ (c i : ℕ), trialLoop n s r draws i c = true := by
  intro c i
  exact (trialLoop_eq_true_iff n s r draws c i).mpr fun j _ => hall (i + j)

lemma trialLoop_congr (n : ℤ) (s : ℕ) (r : ℤ) (draws draws' : ℕ → ℤ) :
    ∀ (c i : ℕ), (∀ j, j < c → draws' (i + j) = draws (i + j)) →
      trialLoop n s r draws' i c = trialLoop n s r draws i c := by
  intro c
  induction c with
  | zero => intro i _; rfl
  | succ c ih =>
    intro i hagree
    have h0 : draws' i = draws i := by simpa using hagree 0 (Nat.succ_pos c)
    rw [trialLoop, trialLoop, h0, ih (i + 1)]
    intro j hj
    have hidx : i + 1 + j = i + (j + 1) := by omega
    rw [hidx]
    exact hagree (j + 1) (by omega)

lemma trialLoop_shortcircuit (n : ℤ) (s : ℕ) (r : ℤ) (draws : ℕ → ℤ) :
    ∀ (c i j : ℕ), j < c →
      (∀ t, t < j → miller_rabin_rand_test n s r (draws (i + t)) = true) →
      miller_rabin_rand_test n s r (draws (i + j)) = false →
      trialLoop n s r draws i c = false := by
  intro c
  induction c with
  | zero => intro i j hj; omega
  | succ c ih =>
    intro i j hj hprev hfail
    cases j with
    | zero =>
      rw [Nat.add_zero] at hfail
      simp [trialLoop, hfail]
    | succ j =>
      have h0 : miller_rabin_rand_test n s r (draws i) = true := by
        simpa using hprev 0 (Nat.succ_pos j)
      rw [trialLoop, if_pos h0]
      apply ih (i + 1) j (by omega)
      · intro t ht
        have hidx : i + 1 + t = i + (t + 1) := by omega
        rw [hidx]
        exact hprev (t + 1) (by omega)
      · have hidx : i + 1 + j = i + (j + 1) := by omega
        rwa [hidx]

lemma is_prime_eq_some_trials (n : ℤ) (hodd : n % 2 = 1) (hn : 3 < n)
    (k : ℤ) (draws : ℕ → ℤ) :
    ∃ s r, find_miller_rabin_r_s n = some (s, r) ∧ r % 2 = 1 ∧
      r * 2 ^ s = n - 1 ∧ 1 ≤ r ∧ 1 ≤ s ∧
      is_prime_miller_rabin n k draws = some (trialLoop n s r draws 0 k.toNat) := by
  obtain ⟨s, r, hf, h1, h2, h3, h4⟩ := find_miller_rabin_r_s_spec n hodd (by omega)
  refine ⟨s, r, hf, h1, h2, h3, h4, ?_⟩
  rw [is_prime_miller_rabin, if_neg (by omega), if_neg (by omega), hf]

lemma is_prime_some_true_of_prime (n : ℤ) (hprime : IsPrimeNumber n)
    (k : ℤ) (draws : ℕ → ℤ) (hd : ValidDraws n draws) :
    is_prime_miller_rabin n k draws = some true := by
  have hp : n.toNat.Prime := hprime
  have hn0 : 0 ≤ n := by
    by_contra h
    push_neg at h
    rw [Int.toNat_of_nonpos h.le] at hp
    exact absurd hp (by decide)
  have hnp : n = (n.toNat : ℤ) := (Int.toNat_of_nonneg hn0).symm
  have hn2 : 2 ≤ n.toNat := hp.two_le
  by_cases h23 : n = 2 ∨ n = 3
  · rw [is_prime_miller_rabin, if_pos h23]
  · push_neg at h23
    have hn3 : 3 < n := by omega
    have hodd : n % 2 = 1 := by
      rcases hp.eq_two_or_odd with h | h
      · omega
      · omega
    obtain ⟨s, r, hf, hro, hmul, hr1, hs1, heq⟩ :=
      is_prime_eq_some_trials n hodd hn3 k draws
    have hall : ∀ i, miller_rabin_rand_test n s r (draws i) = true := fun i =>
      trial_true_of_prime n n.toNat hp hnp hn3 s r hs1 hr1 hmul (draws i) (hd i).1 (hd i).2
    rw [heq, trialLoop_true_of_all n s r draws hall k.toNat 0]

/-- Claim C1: soundness of a `false` verdict.  For every integer `n`, trial
count `k`, and outcome of the random witness draws, if
`is_prime_miller_rabin n k` returns `false` then `n` is not a prime
number. -/
theorem c1_false_verdict_sound (n k : ℤ) (draws : ℕ → ℤ) (hd : ValidDraws n draws)
    (hfalse : is_prime_miller_rabin n k draws = some false) : ¬ IsPrimeNumber n := by
  intro hprime
  rw [is_prime_some_true_of_prime n hprime k draws hd] at hfalse
  simp at hfalse

/-- Witness for C1 at `n = 9`, `k = 1`, constant draw `a = 2`. -/
theorem c1_false_verdict_sound_witness : ¬ IsPrimeNumber 9 :=
  c1_false_verdict_sound 9 1 (fun _ => 2)
    (by intro i; constructor <;> norm_num) (by decide)

/-- Claim C4: no false negatives for any prime.  For every prime number `n`,
every trial count `k`, and every outcome of the random witness draws,
`is_prime_miller_rabin n k` returns `true`. -/
theorem c4_prime_always_true (n : ℤ) (hprime : IsPrimeNumber n) (k : ℤ)
    (draws : ℕ → ℤ) (hd : ValidDraws n draws) :
    is_prime_miller_rabin n k draws = some true :=
  is_prime_some_true_of_prime n hprime k draws hd

/-- Witness for C4 at `n = 5`, `k = 1`, constant draw `a = 2`. -/
theorem c4_prime_always_true_witness :
    is_prime_miller_rabin 5 1 (fun _ => 2) = some true :=
  c4_prime_always_true 5 (by decide) 1
    (fun _ => 2) (by intro i; constructor <;> norm_num)

/-- Claim C5: every listed small prime is reported `true` with the default
trial count for every outcome of the draws, and `n = 2`, `n = 3` are decided
by the fast path, independently of the trial count and of the draws. -/
theorem c5_small_primes :
    (∀ n : ℤ, n ∈ ([2, 3, 5, 7, 11, 13, 17, 19, 23, 53, 101, 131] : List ℤ) →
      ∀ draws, ValidDraws n draws →
        is_prime_miller_rabin n defaultK draws = some true) ∧
    (∀ (k : ℤ) (draws : ℕ → ℤ), is_prime_miller_rabin 2 k draws = some true ∧
      is_prime_miller_rabin 3 k draws = some true) := by
  constructor
  · intro n hn draws hd
    apply is_prime_some_true_of_prime n _ defaultK draws hd
    fin_cases hn <;> decide
  · intro k draws
    exact ⟨rfl, rfl⟩

/-- Witness for C5 at `n = 5` with the default trial count. -/
theorem c5_small_primes_witness :
    is_prime_miller_rabin 5 defaultK (fun _ => 2) = some true :=
  c5_small_primes.1 5 (by decide) (fun _ => 2)
    (by intro i; constructor <;> norm_num)

/-- Claim C6: for every even `n > 2` and every `n ≤ 1` (zero and negative
integers included), and for every trial count `k` and every outcome of the
draws, `is_prime_miller_rabin n k` returns `false` (fast path: no
decomposition, no trial — the result does not depend on `draws`, and for
`n ≤ 1` a reached decomposition could not even terminate). -/
theorem c6_fast_path_false (n k : ℤ) (draws : ℕ → ℤ)
    (h : (2 < n ∧ n % 2 = 0) ∨ n ≤ 1) :
    is_prime_miller_rabin n k draws = some false := by
  rw [is_prime_miller_rabin, if_neg (by omega), if_pos (by omega)]

/-- Witness for C6 at `n = 4`. -/
theorem c6_fast_path_false_witness :
    is_prime_miller_rabin 4 7 (fun _ => 0) = some false :=
  c6_fast_path_false 4 7 (fun _ => 0) (by omega)

/-- Claim C7: trial orchestration.  For every odd `n > 3` and `k ≥ 1`, the
decomposition succeeds and: the verdict is `true` exactly when all `k` trials
(trial `j` consuming the fresh witness `draws j`) return `true`; it is
`false` exactly when some trial among the first `k` returns `false`; the
verdict depends on at most the first `k` draws; and if trial `j` is the first
to return `false`, the verdict is `false` for any draw stream agreeing with
`draws` up to index `j` — no trial after the first failing one is ever
consulted. -/
theorem c7_orchestration (n : ℤ) (hodd : n % 2 = 1) (hn : 3 < n) (k : ℤ)
    (_hk : 1 ≤ k) (draws draws' : ℕ → ℤ) :
    ∃ s r, find_miller_rabin_r_s n = some (s, r) ∧
      (is_prime_miller_rabin n k draws = some true ↔
        ∀ j, j < k.toNat → miller_rabin_rand_test n s r (draws j) = true) ∧
      (is_prime_miller_rabin n k draws = some false ↔
        ∃ j, j < k.toNat ∧ miller_rabin_rand_test n s r (draws j) = false) ∧
      ((∀ j, j < k.toNat → draws' j = draws j) →
        is_prime_miller_rabin n k draws' = is_prime_miller_rabin n k draws) ∧
      (∀ j, j < k.toNat →
        (∀ i, i < j → miller_rabin_rand_test n s r (draws i) = true) →
        miller_rabin_rand_test n s r (draws j) = false →
        (∀ i, i ≤ j → draws' i = draws i) →
        is_prime_miller_rabin n k draws' = some false) := by
  obtain ⟨s, r, hf, _, _, _, _, heq⟩ := is_prime_eq_some_trials n hodd hn k draws
  obtain ⟨s2, r2, hf2, _, _, _, _, heq2⟩ := is_prime_eq_some_trials n hodd hn k draws'
  rw [hf, Option.some_inj, Prod.mk.injEq] at hf2
  obtain ⟨rfl, rfl⟩ := hf2
  have htrue : is_prime_miller_rabin n k draws = some true ↔
      ∀ j, j < k.toNat → miller_rabin_rand_test n s r (draws j) = true := by
    rw [heq, Option.some_inj, trialLoop_eq_true_iff]
    constructor
    · intro h j hj
      simpa using h j hj
    · intro h j hj
      simpa using h j hj
  refine ⟨s, r, hf, htrue, ?_, ?_, ?_⟩
  · rw [heq, Option.some_inj]
    constructor
    · intro hb
      have hnotall : ¬ ∀ j, j < k.toNat →
          miller_rabin_rand_test n s r (draws (0 + j)) = true := by
        intro hall
        rw [(trialLoop_eq_true_iff n s r draws k.toNat 0).mpr hall] at hb
        exact absurd hb (by simp)
      push_neg at hnotall
      obtain ⟨j, hj, hne⟩ := hnotall
      refine ⟨j, hj, ?_⟩
      have := Bool.eq_false_iff.mpr hne
      simpa using this
    · rintro ⟨j, hj, hfail⟩
      apply Bool.eq_false_iff.mpr
      intro hall
      have := (trialLoop_eq_true_iff n s r draws k.toNat 0).mp hall j hj
      rw [Nat.zero_add, hfail] at this
      exact absurd this (by simp)
  · intro hagree
    rw [heq, heq2]
    congr 1
    apply trialLoop_congr
    intro j hj
    simpa using hagree j hj
  · intro j hj hprev hfail hagree
    rw [heq2]
    have hfalse : trialLoop n s r draws' 0 k.toNat = false := by
      apply trialLoop_shortcircuit n s r draws' k.toNat 0 j hj
      · intro t ht
        have ha := hagree t (by omega)
        rw [Nat.zero_add, ha]
        exact hprev t ht
      · have ha := hagree j (le_refl j)
        rw [Nat.zero_add, ha]
        exact hfail
    rw [hfalse]

/-- Witness for C7 at `n = 9`, `k = 2`, both draw streams constantly `2`. -/
theorem c7_orchestration_witness :
    ∃ s r, find_miller_rabin_r_s 9 = some (s, r) ∧
      (is_prime_miller_rabin 9 2 (fun _ => 2) = some true ↔
        ∀ j, j < (2 : ℤ).toNat →
          miller_rabin_rand_test 9 s r ((fun _ => (2 : ℤ)) j) = true) ∧
      (is_prime_miller_rabin 9 2 (fun _ => 2) = some false ↔
        ∃ j, j < (2 : ℤ).toNat ∧
          miller_rabin_rand_test 9 s r ((fun _ => (2 : ℤ)) j) = false) ∧
      ((∀ j, j < (2 : ℤ).toNat → (fun _ => (2 : ℤ)) j = (fun _ => (2 : ℤ)) j) →
        is_prime_miller_rabin 9 2 (fun _ => 2) = is_prime_miller_rabin 9 2 (fun _ => 2)) ∧
      (∀ j, j < (2 : ℤ).toNat →
        (∀ i, i < j → miller_rabin_rand_test 9 s r ((fun _ => (2 : ℤ)) i) = true) →
        miller_rabin_rand_test 9 s r ((fun _ => (2 : ℤ)) j) = false →
        (∀ i, i ≤ j → (fun _ => (2 : ℤ)) i = (fun _ => (2 : ℤ)) i) →
        is_prime_miller_rabin 9 2 (fun _ => 2) = some false) :=
  c7_orchestration 9 (by decide) (by decide) 2 (by decide) (fun _ => 2) (fun _ => 2)

/-- Claim C9: non-positive trial count.  For every odd `n > 3` and every
`k ≤ 0`, the test runs zero witness trials (the result does not depend on
`draws` at all) and returns `true`. -/
theorem c9_nonpositive_k (n : ℤ) (hodd : n % 2 = 1) (hn : 3 < n) (k : ℤ)
    (hk : k ≤ 0) (draws : ℕ → ℤ) :
    is_prime_miller_rabin n k draws = some true := by
  obtain ⟨s, r, hf, _, _, _, _, heq⟩ := is_prime_eq_some_trials n hodd hn k draws
  rw [heq]
  have h0 : k.toNat = 0 := by omega
  rw [h0]
  rfl

/-- Witness for C9 at `n = 5`, `k = -1`. -/
theorem c9_nonpositive_k_witness :
    is_prime_miller_rabin 5 (-1) (fun _ => 0) = some true :=
  c9_nonpositive_k 5 (by decide) (by decide) (-1) (by decide) (fun _ => 0)

/-- Claim C10: totality.  For every integer `n`, every trial count `k` and
every outcome of the draws, `is_prime_miller_rabin` terminates with a boolean
(the fuelled model never returns `none`); the decomposer's halving loop run
on `r = 0` — which is what input `n = 1` would feed it — exits for no amount
of fuel, i.e. the Python loop would not terminate there, but that input is
unreachable behind the fast paths. -/
theorem c10_totality :
    (∀ (n k : ℤ) (draws : ℕ → ℤ), ∃ b, is_prime_miller_rabin n k draws = some b) ∧
    (∀ fuel s, fmrsLoop fuel s 0 = none) ∧ find_miller_rabin_r_s 1 = none := by
  refine ⟨?_, ?_, by decide⟩
  · intro n k draws
    by_cases h23 : n = 2 ∨ n = 3
    · exact ⟨true, by rw [is_prime_miller_rabin, if_pos h23]⟩
    · by_cases hsmall : n ≤ 1 ∨ n % 2 = 0
      · exact ⟨false, by rw [is_prime_miller_rabin, if_neg h23, if_pos hsmall]⟩
      · push_neg at h23 hsmall
        have hodd : n % 2 = 1 := by omega
        have hn : 3 < n := by omega
        obtain ⟨s, r, hf, _, _, _, _, heq⟩ := is_prime_eq_some_trials n hodd hn k draws
        exact ⟨_, heq⟩
  · intro fuel
    induction fuel with
    | zero => intro s; rfl
    | succ fuel ih =>
      intro s
      rw [fmrsLoop, if_pos (by decide : (0 : ℤ) % 2 = 0)]
      have h2 : (0 : ℤ) / 2 = 0 := by decide
      rw [h2]
      exact ih (s + 1)
